import Mathlib

/-!
Verification of the DAMON (Data Access MONitor) core against its
natural-language specification.  The definitions below are a shallow
embedding of `mm/damon.c`, `mm/damon/core.c`, `mm/damon/paddr.c` and
`include/linux/damon.h`: intrusive region lists become `List`, machine
integers become `Nat`/`Int`, the pseudo-random stream becomes an explicit
oracle `Nat → Nat`, and fallible C functions return `Option`/pairs with an
error code.  Each embedded definition cites the C function it was
translated from.
-/

namespace DamonSpec

/-- `struct damon_region` from include/linux/damon.h.  The intrusive
`list` head is represented by membership in a `List damon_region`. -/
structure damon_region where
  vm_start : Nat
  vm_end : Nat
  sampling_addr : Nat
  nr_accesses : Nat
  age : Nat
  last_nr_accesses : Nat
deriving DecidableEq, Repr

/-- `damon_new_region` (mm/damon.c:64): fresh region with zeroed counters.
The C code leaves `sampling_addr`, `age` and `last_nr_accesses`
uninitialized; the model zeroes them (no claim depends on them). -/
def damon_new_region (vm_start vm_end : Nat) : damon_region :=
  { vm_start := vm_start, vm_end := vm_end, sampling_addr := 0,
    nr_accesses := 0, age := 0, last_nr_accesses := 0 }

/-- `sz_damon_region` macro (mm/damon.c:661). -/
def sz_damon_region (r : damon_region) : Nat := r.vm_end - r.vm_start

/-- `diff_of` macro (mm/damon.c:676). -/
def diff_of (a b : Nat) : Nat := if a > b then a - b else b - a

/-- `damon_merge_two_regions` (mm/damon.c:666): merge `r` into `l`,
making `l.nr_accesses` the size-weighted average and extending `l` to
`r.vm_end`; `r` is destroyed (dropped from the list by the caller). -/
def damon_merge_two_regions (l r : damon_region) : damon_region :=
  { l with
    nr_accesses := (l.nr_accesses * sz_damon_region l +
        r.nr_accesses * sz_damon_region r) /
        (sz_damon_region l + sz_damon_region r),
    vm_end := r.vm_end }

/-- The scan of `damon_merge_regions_of` (mm/damon.c:684) with the
current `prev` region carried explicitly: merge the next region into
`prev` when they touch and their access counts differ by at most
`thres`; otherwise emit `prev` and continue with the next region as the
new `prev`. -/
def damon_merge_aux (thres : Nat) (prev : damon_region) :
    List damon_region → List damon_region
  | [] => [prev]
  | r :: rest =>
    if prev.vm_end = r.vm_start ∧ diff_of prev.nr_accesses r.nr_accesses ≤ thres then
      damon_merge_aux thres (damon_merge_two_regions prev r) rest
    else
      prev :: damon_merge_aux thres r rest

/-- `damon_merge_regions_of` (mm/damon.c:684): merge adjacent regions of
one task having similar access frequencies. -/
def damon_merge_regions_of (thres : Nat) : List damon_region → List damon_region
  | [] => []
  | r :: rest => damon_merge_aux thres r rest

/-- `damon_split_region_at` (mm/damon.c:722): split `r` into
`[vm_start, vm_start + sz_r)` and `[vm_start + sz_r, vm_end)`; the new
right piece is allocated with `damon_new_region`, so its counters are
zeroed. -/
def damon_split_region_at (r : damon_region) (sz_r : Nat) : List damon_region :=
  [{ r with vm_end := r.vm_start + sz_r },
   damon_new_region (r.vm_start + sz_r) r.vm_end]

/-- `damon_split_regions_of` (mm/damon.c:733): walk the regions of one
task; for each, draw one pseudo-random number (`g i` is the i-th draw of
`prandom_u32_state(&ctx->rndseed)`), compute a left-piece size between
10% and 90% of the region, and split unless that size is zero.  Returns
the new region list and the next unused oracle index. -/
def damon_split_regions_of (g : Nat → Nat) (i : Nat) :
    List damon_region → List damon_region × Nat
  | [] => ([], i)
  | r :: rest =>
    let sz_left_region := (g i % 9 + 1) * (r.vm_end - r.vm_start) / 10
    let res := damon_split_regions_of g (i + 1) rest
    if sz_left_region = 0 then (r :: res.1, res.2)
    else (damon_split_region_at r sz_left_region ++ res.1, res.2)

/-- `nr_damon_regions` (mm/damon.c:180): a task's region count. -/
def nr_damon_regions (t : List damon_region) : Nat := t.length

/-- The `nr_regions` accumulation loop of `kdamond_split_regions`
(mm/damon.c:767): total region count across all tasks. -/
def nr_total_regions (targets : List (List damon_region)) : Nat :=
  (targets.map nr_damon_regions).sum

/-- The second loop of `kdamond_split_regions` (mm/damon.c:772): split
the regions of every task, threading the pseudo-random oracle. -/
def damon_split_targets (g : Nat → Nat) (i : Nat) :
    List (List damon_region) → List (List damon_region) × Nat
  | [] => ([], i)
  | t :: ts =>
    let rt := damon_split_regions_of g i t
    let rts := damon_split_targets g rt.2 ts
    (rt.1 :: rts.1, rts.2)

/-- `kdamond_split_regions` (mm/damon.c:762): do nothing when the
current total region count exceeds `max_nr_regions / 2`, else split
every region of every task. -/
def kdamond_split_regions (max_nr_regions : Nat) (g : Nat → Nat)
    (targets : List (List damon_region)) : List (List damon_region) :=
  if nr_total_regions targets > max_nr_regions / 2 then targets
  else (damon_split_targets g 0 targets).1

/-- The piece-creating loop of `damon_split_region_evenly`
(mm/damon.c:236): starting at `start`, emit `[start, start + sz_piece)`
pieces while `start + sz_piece ≤ orig_end`.  The loop advances by
`sz_piece ≥ 1` each time, so `fuel = sz_orig` draws are always enough
(`damon_split_evenly_pieces_stable` below). -/
def damon_split_evenly_pieces (sz_piece orig_end : Nat) :
    Nat → Nat → List damon_region
  | 0, _ => []
  | fuel + 1, start =>
    if start + sz_piece ≤ orig_end then
      damon_new_region start (start + sz_piece) ::
        damon_split_evenly_pieces sz_piece orig_end fuel (start + sz_piece)
    else []

/-- The `if (n) n->vm_end = orig_end;` fix-up of
`damon_split_region_evenly` (mm/damon.c:243): extend the last created
piece (if any) to the original end. -/
def set_last_vm_end (orig_end : Nat) : List damon_region → List damon_region
  | [] => []
  | [r] => [{ r with vm_end := orig_end }]
  | r :: rest => r :: set_last_vm_end orig_end rest

/-- `damon_split_region_evenly` (mm/damon.c:217): size-evenly split a
region into `nr_pieces` pieces; `none` models the `-EINVAL` returns.
The shrunk original region is followed by the freshly allocated pieces,
the last of which absorbs the rounding remainder. -/
def damon_split_region_evenly (r : damon_region) (nr_pieces : Nat) :
    Option (List damon_region) :=
  if nr_pieces = 0 then none
  else
    let sz_orig := r.vm_end - r.vm_start
    let sz_piece := sz_orig / nr_pieces
    if sz_piece = 0 then none
    else
      some ({ r with vm_end := r.vm_start + sz_piece } ::
        set_last_vm_end r.vm_end
          (damon_split_evenly_pieces sz_piece r.vm_end sz_orig (r.vm_start + sz_piece)))

/-- A vma as `damon_three_regions_in_vmas` reads it: `vm_start`,
`vm_end`, chained in address order by `vm_next`. -/
structure vm_area_struct where
  vm_start : Nat
  vm_end : Nat
deriving DecidableEq, Repr

/-- `struct region` (mm/damon.c:249); `end` is a Lean keyword, hence
`end_`. -/
structure region where
  start : Nat
  end_ : Nat
deriving DecidableEq, Repr

/-- `sz_region` (mm/damon.c:254). -/
def sz_region (r : region) : Nat := r.end_ - r.start

/-- The loop state of `damon_three_regions_in_vmas` (mm/damon.c:281):
`start` of the first vma, the end of the previously visited vma
(`last_vma`), and the two biggest gaps found so far. -/
structure three_regions_scan where
  start : Nat
  last_vma_end : Option Nat
  first_gap : region
  second_gap : region
deriving DecidableEq, Repr

/-- One iteration of the vma scan in `damon_three_regions_in_vmas`
(mm/damon.c:289-303), including the two conditional `swap_regions`
calls that keep `first_gap ≥ second_gap ≥ ` every other gap. -/
def three_regions_scan_step (s : three_regions_scan) (vma : vm_area_struct) :
    three_regions_scan :=
  match s.last_vma_end with
  | none => { s with start := vma.vm_start, last_vma_end := some vma.vm_end }
  | some last_end =>
    let gap : region := { start := last_end, end_ := vma.vm_start }
    if sz_region gap > sz_region s.second_gap then
      if sz_region gap > sz_region s.first_gap then
        { s with first_gap := gap, second_gap := s.first_gap,
                 last_vma_end := some vma.vm_end }
      else
        { s with second_gap := gap, last_vma_end := some vma.vm_end }
    else { s with last_vma_end := some vma.vm_end }

/-- `damon_three_regions_in_vmas` (mm/damon.c:281): find the three
regions separated by the two biggest unmapped gaps; `none` models the
`-EINVAL` return taken when fewer than two nonempty gaps exist. -/
def damon_three_regions_in_vmas (vmas : List vm_area_struct) :
    Option (region × region × region) :=
  let s := vmas.foldl three_regions_scan_step
    { start := 0, last_vma_end := none,
      first_gap := { start := 0, end_ := 0 },
      second_gap := { start := 0, end_ := 0 } }
  if sz_region s.second_gap = 0 ∨ sz_region s.first_gap = 0 then none
  else
    match s.last_vma_end with
    | none => none
    | some last_end =>
      let fg := if s.first_gap.start > s.second_gap.start then s.second_gap else s.first_gap
      let sg := if s.first_gap.start > s.second_gap.start then s.first_gap else s.second_gap
      some ({ start := s.start, end_ := fg.start },
            { start := fg.end_, end_ := sg.start },
            { start := sg.end_, end_ := last_end })

/-- `damon_init_regions_of` (mm/damon.c:388) for one task, as a function
of the task's vma list: on a three-regions failure the (initially empty)
region list is left empty; on success the three regions are installed
and the middle one is size-evenly split into `min_nr_regions - 2`
pieces (left as the bare three regions if that split fails). -/
def damon_init_regions_of (min_nr_regions : Nat)
    (vmas : List vm_area_struct) : List damon_region :=
  match damon_three_regions_in_vmas vmas with
  | none => []
  | some (r0, r1, r2) =>
    let reg1 := damon_new_region r1.start r1.end_
    match damon_split_region_evenly reg1 (min_nr_regions - 2) with
    | none => [damon_new_region r0.start r0.end_, reg1,
               damon_new_region r2.start r2.end_]
    | some pieces => damon_new_region r0.start r0.end_ ::
        (pieces ++ [damon_new_region r2.start r2.end_])

/-- Number of nonempty unmapped gaps the scan walks over, continuing
from the end of the previously visited vma (if any). -/
def gaps_from : Option Nat → List vm_area_struct → Nat
  | _, [] => 0
  | none, v :: rest => gaps_from (some v.vm_end) rest
  | some last_end, v :: rest =>
    (if last_end < v.vm_start then 1 else 0) + gaps_from (some v.vm_end) rest

/-- Number of nonempty unmapped gaps between consecutive vmas. -/
def nr_nonempty_gaps (vmas : List vm_area_struct) : Nat := gaps_from none vmas

/-- The kernel's vma-list invariant: vmas are well-formed, disjoint and
sorted by address (so the unsigned gap sizes the C code computes never
wrap). -/
def vmas_sorted : List vm_area_struct → Bool
  | [] => true
  | [v] => v.vm_start ≤ v.vm_end
  | v :: w :: rest =>
    decide (v.vm_start ≤ v.vm_end) && decide (v.vm_end ≤ w.vm_start) &&
      vmas_sorted (w :: rest)

/- Error codes (include/uapi/asm-generic/errno-base.h). -/

def EPERM : Int := 1
def ENOENT : Int := 2
def ENOMEM : Int := 12
def EBUSY : Int := 16
def EINVAL : Int := 22

/-- The attribute fields of `struct damon_ctx`
(include/linux/damon.h:164). -/
structure damon_ctx_attrs where
  sample_interval : Nat
  aggr_interval : Nat
  regions_update_interval : Nat
  min_nr_regions : Nat
  max_nr_regions : Nat
deriving DecidableEq, Repr

/-- `damon_set_attrs` (mm/damon.c:1080): returns the error code and the
resulting context.  Note that the second validation compares the
`min_nr_reg` argument against the previously stored
`ctx->max_nr_regions`, not against the `max_nr_reg` argument that its
own `pr_err` message prints. -/
def damon_set_attrs (ctx : damon_ctx_attrs)
    (sample_int aggr_int regions_update_int min_nr_reg max_nr_reg : Nat) :
    Int × damon_ctx_attrs :=
  if min_nr_reg < 3 then (-EINVAL, ctx)
  else if min_nr_reg ≥ ctx.max_nr_regions then (-EINVAL, ctx)
  else (0,
    { sample_interval := sample_int, aggr_interval := aggr_int,
      regions_update_interval := regions_update_int,
      min_nr_regions := min_nr_reg, max_nr_regions := max_nr_reg })

/-- `damon_set_attrs` of mm/damon/core.c:174 (the variant with a single
region count): only `nr_reg < 3` is rejected. -/
def core_damon_set_attrs (sample_int aggr_int nr_reg : Nat) :
    Int × Option (Nat × Nat × Nat) :=
  if nr_reg < 3 then (-EINVAL, none)
  else (0, some (sample_int, aggr_int, nr_reg))

/-- Return code of `damon_stop` (mm/damon.c:974), as a function of
whether `ctx->kdamond` is set: with a running worker it stops the
kthread, waits for the worker to clear the handle (the wait loop is a
scheduling detail outside this model) and returns 0; otherwise it
returns `-EBUSY`. -/
def damon_stop (kdamond : Option Nat) : Int :=
  match kdamond with
  | some _ => 0
  | none => -EBUSY

/-- Return code of `__damon_stop` (mm/damon/core.c:272): same shape, but
the no-worker error is `-EPERM`. -/
def __damon_stop (kdamond : Option Nat) : Int :=
  match kdamond with
  | some _ => 0
  | none => -EPERM

/- ### The worker loop (`kdamond_fn`, mm/damon.c:889) as an event trace. -/

/-- Observable operations of one iteration of the damon.c worker loop,
plus `applySchemes`, which the spec's loop description mentions but the
code does not contain. -/
inductive KdEvent where
  | prepareAccessChecks
  | sampleCb
  | mergeRegions (thres : Nat)
  | aggregateCb
  | resetAggregated
  | splitRegions
  | updateRegions
  | sleep (usecs : Nat)
  | checkAccesses (ret : Nat)
  | applySchemes
deriving DecidableEq, Repr

/-- Loop-carried state of `kdamond_fn` (mm/damon.c:889): the
`max_nr_accesses` local (initialized to 0 before the loop) and the trace
of operations performed so far. -/
structure KdIterState where
  max_nr_accesses : Nat
  trace : List KdEvent
deriving DecidableEq, Repr

/-- Append one operation to the trace. -/
def kd_emit (e : KdEvent) (s : KdIterState) : KdIterState :=
  { s with trace := s.trace ++ [e] }

/-- One iteration of the `while (!kdamond_need_stop(ctx))` loop of
`kdamond_fn` (mm/damon.c:898-917), statement by statement.
`has_sample_cb` / `has_aggregate_cb` model whether `ctx->sample_cb` /
`ctx->aggregate_cb` are installed; `aggr_passed` / `update_passed` are
the results of the two interval checks; `check_ret` is what
`kdamond_check_accesses` returns this iteration. -/
def kdamond_iteration (has_sample_cb has_aggregate_cb aggr_passed update_passed : Bool)
    (sample_interval check_ret : Nat) (s : KdIterState) : KdIterState :=
  let s1 := kd_emit .prepareAccessChecks s
  let s2 := if has_sample_cb then kd_emit .sampleCb s1 else s1
  let s3 :=
    if aggr_passed then
      let sa := kd_emit (.mergeRegions (s2.max_nr_accesses / 10)) s2
      let sb := if has_aggregate_cb then kd_emit .aggregateCb sa else sa
      let sc := kd_emit .resetAggregated sb
      kd_emit .splitRegions sc
    else s2
  let s4 := if update_passed then kd_emit .updateRegions s3 else s3
  let s5 := kd_emit (.sleep sample_interval) s4
  let s6 := kd_emit (.checkAccesses check_ret) s5
  { s6 with max_nr_accesses := check_ret }

/-- The per-iteration operation order asserted by the spec (§4.3, steps
1-5): prepare, sampling callback, sleep, check (remembered), then — if
the aggregation interval passed — aggregation callback, merge with
threshold `max_nr_accesses / 10` taken from this iteration's check,
schemes, reset, split. -/
def claimed_iteration_trace (aggr_passed : Bool)
    (sample_interval check_ret : Nat) : List KdEvent :=
  [.prepareAccessChecks, .sampleCb, .sleep sample_interval,
   .checkAccesses check_ret] ++
    if aggr_passed then
      [.aggregateCb, .mergeRegions (check_ret / 10), .applySchemes,
       .resetAggregated, .splitRegions]
    else []

/- ### Coverage of a region list, and sequences of merge/split steps. -/

/-- Address `a` lies in some region of the list. -/
def damon_covers (rs : List damon_region) (a : Nat) : Prop :=
  ∃ r ∈ rs, r.vm_start ≤ a ∧ a < r.vm_end

instance (rs : List damon_region) (a : Nat) : Decidable (damon_covers rs a) :=
  List.decidableBEx _ rs

/-- Every region of the list is a well-formed address range
(`ar.start < ar.end` is the data-model invariant; `≤` suffices here). -/
def damon_wf (rs : List damon_region) : Prop :=
  ∀ r ∈ rs, r.vm_start ≤ r.vm_end

instance (rs : List damon_region) : Decidable (damon_wf rs) :=
  List.decidableBAll _ rs

/-- A step of the adaptive partition engine on one target: a
`damon_merge_regions_of` pass with some threshold, or a
`damon_split_regions_of` pass with some pseudo-random oracle. -/
inductive PartitionStep where
  | merge (thres : Nat)
  | split (g : Nat → Nat)

/-- Run one partition step on a target's region list. -/
def apply_partition_step : PartitionStep → List damon_region → List damon_region
  | .merge thres, rs => damon_merge_regions_of thres rs
  | .split g, rs => (damon_split_regions_of g 0 rs).1

/-- Run a sequence of partition steps on a target's region list. -/
def apply_partition_steps (steps : List PartitionStep)
    (rs : List damon_region) : List damon_region :=
  steps.foldl (fun rs st => apply_partition_step st rs) rs

/- ### DAMOS, the operation-scheme engine.

`struct damos` and `enum damos_action` are declared in
include/linux/damon.h, and `ctx->primitive.apply_scheme` is declared and
set (to NULL) in mm/damon/paddr.c, but the engine that walks the
(target, region, scheme) triples is not part of this tree; it is
modelled from the spec below. -/

/-- `enum damos_action` (include/linux/damon.h:70).  `DAMOS_ACTION_LEN`
is a count sentinel, not an action, and is omitted. -/
inductive damos_action where
  | willneed
  | cold
  | pageout
  | hugepage
  | nohugepage
  | stat
deriving DecidableEq, Repr

/-- `struct damos` (include/linux/damon.h:97). -/
structure damos where
  min_sz_region : Nat
  max_sz_region : Nat
  min_nr_accesses : Nat
  max_nr_accesses : Nat
  min_age_region : Nat
  max_age_region : Nat
  action : damos_action
  stat_count : Nat
  stat_sz : Nat
deriving DecidableEq, Repr

/-- Whether a region matches a scheme's predicate: size, access count
and age each within the scheme's inclusive [min, max] bounds
(include/linux/damon.h:93-95, spec §4.5). -/
def damos_valid_target (r : damon_region) (s : damos) : Bool :=
  decide (s.min_sz_region ≤ sz_damon_region r) &&
  decide (sz_damon_region r ≤ s.max_sz_region) &&
  decide (s.min_nr_accesses ≤ r.nr_accesses) &&
  decide (r.nr_accesses ≤ s.max_nr_accesses) &&
  decide (s.min_age_region ≤ r.age) &&
  decide (r.age ≤ s.max_age_region)

/-- Observable operations of the scheme engine: `invoke t r s` is the
`apply_scheme` invocation for target index `t`, region index `r` and
scheme index `s`; `madvise` is the concrete action the primitive
performs on the region's address range. -/
inductive SchemeEvent where
  | invoke (t_idx r_idx s_idx : Nat)
  | madvise (a : damos_action) (vm_start vm_end : Nat)
deriving DecidableEq, Repr

/-- Modelled from the spec: the `apply_scheme` primitive hook (§4.2)
"performs the concrete action on the region's address range", and "the
STAT action only accumulates statistics" (§4.5), i.e. performs no
external action. -/
def damos_apply_action_events (r : damon_region) (s : damos) : List SchemeEvent :=
  if s.action = .stat then []
  else [.madvise s.action r.vm_start r.vm_end]

/-- Modelled from the spec (§4.5): "On success, `scheme.stat_count += 1`,
`scheme.stat_sz += size(region)`". -/
def damos_update_stat (s : damos) (r : damon_region) : damos :=
  { s with stat_count := s.stat_count + 1,
           stat_sz := s.stat_sz + sz_damon_region r }

/-- Modelled from the spec (§4.5): apply every scheme of the list, in
list order, to one region; `ok t r s` says whether the `apply_scheme`
invocation for that triple succeeds; `si` is the index of the first
scheme of the list.  Returns the updated schemes and the events. -/
def damon_do_apply_schemes (ok : Nat → Nat → Nat → Bool) (ti ri : Nat)
    (r : damon_region) (si : Nat) :
    List damos → List damos × List SchemeEvent
  | [] => ([], [])
  | s :: ss =>
    let res := damon_do_apply_schemes ok ti ri r (si + 1) ss
    if damos_valid_target r s then
      if ok ti ri si then
        (damos_update_stat s r :: res.1,
         (.invoke ti ri si :: damos_apply_action_events r s) ++ res.2)
      else (s :: res.1, .invoke ti ri si :: res.2)
    else (s :: res.1, res.2)

/-- Modelled from the spec (§4.5): apply the schemes to every region of
one target, threading the scheme list (its statistics accumulate). -/
def damos_apply_regions (ok : Nat → Nat → Nat → Bool) (ti : Nat) :
    Nat → List damon_region → List damos → List damos × List SchemeEvent
  | _, [], ss => (ss, [])
  | ri, r :: rest, ss =>
    let res1 := damon_do_apply_schemes ok ti ri r 0 ss
    let res2 := damos_apply_regions ok ti (ri + 1) rest res1.1
    (res2.1, res1.2 ++ res2.2)

/-- Modelled from the spec (§4.5): at each aggregation, apply the
schemes to every region of every target. -/
def kdamond_apply_schemes (ok : Nat → Nat → Nat → Bool) :
    Nat → List (List damon_region) → List damos →
    List damos × List SchemeEvent
  | _, [], ss => (ss, [])
  | ti, t :: ts, ss =>
    let res1 := damos_apply_regions ok ti 0 t ss
    let res2 := kdamond_apply_schemes ok (ti + 1) ts res1.1
    (res2.1, res1.2 ++ res2.2)

/-- The scheme indices of the `apply_scheme` invocations in an event
list, in event order. -/
def invoke_indices (evs : List SchemeEvent) : List Nat :=
  evs.filterMap fun e =>
    match e with
    | .invoke _ _ si => some si
    | _ => none

/-- The indices (counted from `si`) of the schemes of the list that the
region matches, in list order. -/
def eligible_idxs (r : damon_region) : Nat → List damos → List Nat
  | _, [] => []
  | si, s :: ss =>
    (if damos_valid_target r s then [si] else []) ++ eligible_idxs r (si + 1) ss

/-- The scheme's predicate fields and action; `damos_update_stat`
changes only the statistics, never these. -/
def damos_pattern (s : damos) : Nat × Nat × Nat × Nat × Nat × Nat × damos_action :=
  (s.min_sz_region, s.max_sz_region, s.min_nr_accesses, s.max_nr_accesses,
   s.min_age_region, s.max_age_region, s.action)

/- ### Concrete inputs used by witnesses and counterexamples. -/

/-- A region `[start, end)` with a given access count and otherwise
zeroed counters. -/
def mk_region (vm_start vm_end nr_accesses : Nat) : damon_region :=
  { vm_start := vm_start, vm_end := vm_end, sampling_addr := 0,
    nr_accesses := nr_accesses, age := 0, last_nr_accesses := 0 }

/-- The region `[0, 0xA000)` of scenario S2. -/
def r_A000 : damon_region := mk_region 0 0xA000 0

/-- The regions of scenario S3: `[0, 0x1000)` with `nr_accesses = 10`
and `[0x1000, 0x3000)` with `nr_accesses = 12`. -/
def s3_left : damon_region := mk_region 0 0x1000 10

/-- See `s3_left`. -/
def s3_right : damon_region := mk_region 0x1000 0x3000 12

/-- `n` consecutive regions of size `0x10000` each. -/
def sized_regions (n : Nat) : List damon_region :=
  (List.range n).map fun k => mk_region (k * 0x10000) ((k + 1) * 0x10000) 0

/-- A deterministic stand-in for the pseudo-random stream: every draw is
4, so each split keeps `(4 % 9 + 1) = 5` tenths on the left. -/
def g4 : Nat → Nat := fun _ => 4

/-- The default user context attributes (mm/damon.c:51), whose stored
`max_nr_regions` is 1000. -/
def damon_user_ctx_attrs : damon_ctx_attrs :=
  { sample_interval := 5000, aggr_interval := 100000,
    regions_update_interval := 1000000,
    min_nr_regions := 10, max_nr_regions := 1000 }

/-- Context attributes whose stored `max_nr_regions` is 15. -/
def small_max_ctx_attrs : damon_ctx_attrs :=
  { sample_interval := 5000, aggr_interval := 100000,
    regions_update_interval := 1000000,
    min_nr_regions := 3, max_nr_regions := 15 }

/-- A region that matches `s_broad`: size 0x1000, 3 accesses, age 0. -/
def r_matching : damon_region := mk_region 0 0x1000 3

/-- A scheme whose bounds accept `r_matching`, with the STAT action. -/
def s_broad : damos :=
  { min_sz_region := 0, max_sz_region := 100000,
    min_nr_accesses := 0, max_nr_accesses := 1000,
    min_age_region := 0, max_age_region := 1000,
    action := .stat, stat_count := 0, stat_sz := 0 }

/-- An `apply_scheme` success oracle that always succeeds. -/
def ok_all : Nat → Nat → Nat → Bool := fun _ _ _ => true

/-!
## Theorems
-/

/-- C1: `damon_set_attrs` (mm/damon.c:1080) validates `min_nr_reg`
against the previously stored `ctx->max_nr_regions` (with `>=`), not
against the `max_nr_reg` argument of the call.  First conjunct: with the
default context (stored max 1000), the call with `min_nr = 20 >
max_nr = 10` succeeds and installs `min_nr_regions > max_nr_regions`,
where the claim requires `-EINVAL`.  Second conjunct: with stored max
15, the call with `min_nr = 20 ≤ max_nr = 100` fails with `-EINVAL`,
where the claim requires success. -/
theorem damon_set_attrs_stale_max_check :
    damon_set_attrs damon_user_ctx_attrs 5000 100000 1000000 20 10 =
      (0, { sample_interval := 5000, aggr_interval := 100000,
            regions_update_interval := 1000000,
            min_nr_regions := 20, max_nr_regions := 10 }) ∧
    damon_set_attrs small_max_ctx_attrs 5000 100000 1000000 20 100 =
      (-EINVAL, small_max_ctx_attrs) := by
  constructor <;> decide

/-- C2 (counterexample): with both callbacks installed, the aggregation
interval passed, the previous iteration's `max_nr_accesses = 20` and
this iteration's `check_accesses` returning 50, the trace of one damon.c
worker-loop iteration differs from the order the claim asserts (the
code merges with threshold 2 before the aggregation callback and before
the sleep/check, and never applies schemes; the claim puts the sleep and
the check first and expects a merge with threshold 5 after the
callback, then schemes). -/
theorem kdamond_iteration_differs_from_claimed_order :
    (kdamond_iteration true true true false 5000 50
        { max_nr_accesses := 20, trace := [] }).trace ≠
      claimed_iteration_trace true 5000 50 := by
  decide

/-- C2 (amended): the actual per-iteration order of `kdamond_fn`
(mm/damon.c:898-917): prepare_access_checks; the sampling callback (if
installed); if the aggregation interval passed: merge with threshold
`max_nr_accesses / 10` where `max_nr_accesses` is the value returned by
`check_accesses` of the PREVIOUS iteration, then the aggregation
callback (if installed), then the record-and-reset of `nr_accesses`,
then the split step; then the regions-update step if due; then the
sleep of `sample_interval`; then `check_accesses`, whose return value is
remembered for the next iteration.  No scheme application occurs. -/
theorem kdamond_iteration_order (hs ha ap up : Bool) (si cr : Nat)
    (s : KdIterState) :
    (kdamond_iteration hs ha ap up si cr s).trace =
      s.trace ++ [KdEvent.prepareAccessChecks]
        ++ (if hs then [KdEvent.sampleCb] else [])
        ++ (if ap then
              [KdEvent.mergeRegions (s.max_nr_accesses / 10)]
                ++ (if ha then [KdEvent.aggregateCb] else [])
                ++ [KdEvent.resetAggregated, KdEvent.splitRegions]
            else [])
        ++ (if up then [KdEvent.updateRegions] else [])
        ++ [KdEvent.sleep si, KdEvent.checkAccesses cr] ∧
    (kdamond_iteration hs ha ap up si cr s).max_nr_accesses = cr := by
  cases hs <;> cases ha <;> cases ap <;> cases up <;>
    simp [kdamond_iteration, kd_emit, List.append_assoc]

/-- C4 (counterexample): with `max_nr_regions = 10` and a current total
of 6 regions, `kdamond_split_regions` (mm/damon.c:762) does nothing
(6 > 10/2), although the unguarded split of the same regions would have
changed them; the claim asserts that splitting is performed at total 6. -/
theorem kdamond_split_regions_skips_at_six :
    nr_total_regions [sized_regions 6] = 6 ∧
    kdamond_split_regions 10 g4 [sized_regions 6] = [sized_regions 6] ∧
    (damon_split_targets g4 0 [sized_regions 6]).1 ≠ [sized_regions 6] := by
  refine ⟨by decide, by decide, by decide⟩

/-- C4 (amended): the split step does nothing whenever the total region
count exceeds `max_nr_regions / 2`; with `max_nr_regions = 10` it is
performed at total 5 (doubling the count to 10) and skipped at totals 6
and 7. -/
theorem kdamond_split_regions_gate :
    (∀ (max_nr : Nat) (g : Nat → Nat) (ts : List (List damon_region)),
        nr_total_regions ts > max_nr / 2 →
        kdamond_split_regions max_nr g ts = ts) ∧
    kdamond_split_regions 10 g4 [sized_regions 5] ≠ [sized_regions 5] ∧
    nr_total_regions (kdamond_split_regions 10 g4 [sized_regions 5]) = 10 ∧
    kdamond_split_regions 10 g4 [sized_regions 7] = [sized_regions 7] := by
  refine ⟨?_, by decide, by decide, by decide⟩
  intro max_nr g ts h
  unfold kdamond_split_regions
  rw [if_pos h]

/-- C4 (witness): the gate conjunct applied at `max_nr_regions = 10`
and a concrete 6-region target list. -/
theorem kdamond_split_regions_gate_witness :
    nr_total_regions [sized_regions 6] > 10 / 2 ∧
    kdamond_split_regions 10 g4 [sized_regions 6] = [sized_regions 6] :=
  ⟨by decide, kdamond_split_regions_gate.1 10 g4 [sized_regions 6] (by decide)⟩

/-- C5 (counterexample): size-even splitting of `[0, 0xA000)` into three
pieces does not produce the claimed `0x3000`/`0x6000` boundaries; the
code (mm/damon.c:217) uses the unaligned piece size `0xA000 / 3 =
0x3555`. -/
theorem damon_split_region_evenly_not_aligned :
    damon_split_region_evenly r_A000 3 ≠
      some [mk_region 0 0x3000 0, mk_region 0x3000 0x6000 0,
            mk_region 0x6000 0xA000 0] := by
  decide

/-- C5 (amended): splitting `[0, 0xA000)` into `nr_pieces = 3` produces
exactly `[0, 0x3555)`, `[0x3555, 0x6AAA)`, `[0x6AAA, 0xA000)` — pieces
of size `0xA000 / 3 = 0x3555` with no `MIN_REGION` alignment, the last
piece absorbing the rounding remainder. -/
theorem damon_split_region_evenly_A000_three :
    damon_split_region_evenly r_A000 3 =
      some [mk_region 0 0x3555 0, mk_region 0x3555 0x6AAA 0,
            mk_region 0x6AAA 0xA000 0] := by
  decide

/-- C9 (counterexample): stopping a context that has no running worker
does not return `-ENOENT`, neither in `damon_stop` (mm/damon.c:974) nor
in `__damon_stop` (mm/damon/core.c:272). -/
theorem damon_stop_no_worker_not_enoent :
    damon_stop none ≠ -ENOENT ∧ __damon_stop none ≠ -ENOENT := by
  constructor <;> decide

/-- C9 (amended): stop on a context without a running worker fails with
`-EBUSY` in mm/damon.c's `damon_stop` and with `-EPERM` in
mm/damon/core.c's `__damon_stop` (not `-ENOENT`); with a running worker
both return 0 after the worker clears its handle. -/
theorem damon_stop_return_codes :
    damon_stop none = -EBUSY ∧ __damon_stop none = -EPERM ∧
    ∀ k, damon_stop (some k) = 0 ∧ __damon_stop (some k) = 0 :=
  ⟨rfl, rfl, fun _ => ⟨rfl, rfl⟩⟩

/-- The fuel `sz_orig` handed to `damon_split_evenly_pieces` is
irrelevant as soon as it is large enough for the loop to run to its
exit condition: the function stabilizes. -/
theorem damon_split_evenly_pieces_stable (sz_piece orig_end : Nat)
    (hpos : 0 < sz_piece) :
    ∀ (f start : Nat), orig_end ≤ start + sz_piece * f →
      ∀ extra, damon_split_evenly_pieces sz_piece orig_end (f + extra) start =
        damon_split_evenly_pieces sz_piece orig_end f start := by
  intro f
  induction f with
  | zero =>
    intro start hle extra
    cases extra with
    | zero => rfl
    | succ e =>
      have hc : ¬ start + sz_piece ≤ orig_end := by
        simp only [Nat.mul_zero, Nat.add_zero] at hle
        omega
      simp only [Nat.zero_add, damon_split_evenly_pieces, if_neg hc]
  | succ f ih =>
    intro start hle extra
    have hstep : f + 1 + extra = (f + extra) + 1 := by omega
    rw [hstep]
    simp only [damon_split_evenly_pieces]
    by_cases hc : start + sz_piece ≤ orig_end
    · rw [if_pos hc, if_pos hc]
      have hle2 : orig_end ≤ start + sz_piece + sz_piece * f := by
        have hm : sz_piece * (f + 1) = sz_piece * f + sz_piece := by ring
        omega
      rw [ih (start + sz_piece) hle2 extra]
    · rw [if_neg hc, if_neg hc]

/-- C6: a `damon_merge_regions_of` pass over two adjacent regions whose
access counts differ by at most the threshold yields the single spanning
region whose `nr_accesses` is the size-weighted integer average
(mm/damon.c:666,684). -/
theorem damon_merge_adjacent_pair (l r : damon_region) (thres : Nat)
    (hadj : l.vm_end = r.vm_start)
    (hdiff : diff_of l.nr_accesses r.nr_accesses ≤ thres) :
    damon_merge_regions_of thres [l, r] =
      [{ l with
          vm_end := r.vm_end,
          nr_accesses := (l.nr_accesses * sz_damon_region l +
              r.nr_accesses * sz_damon_region r) /
              (sz_damon_region l + sz_damon_region r) }] := by
  simp [damon_merge_regions_of, damon_merge_aux, damon_merge_two_regions,
    hadj, hdiff]

/-- C6 (witness): scenario S3 — merging `[0, 0x1000)` with
`nr_accesses = 10` and `[0x1000, 0x3000)` with `nr_accesses = 12` under
threshold 5 yields `[0, 0x3000)` with `nr_accesses = 11`. -/
theorem damon_merge_adjacent_pair_witness :
    s3_left.vm_end = s3_right.vm_start ∧
    diff_of s3_left.nr_accesses s3_right.nr_accesses ≤ 5 ∧
    damon_merge_regions_of 5 [s3_left, s3_right] = [mk_region 0 0x3000 11] :=
  ⟨rfl, by decide,
   (damon_merge_adjacent_pair s3_left s3_right 5 rfl (by decide)).trans
     (by decide)⟩

/-- A `damon_split_regions_of` pass at most doubles a task's region
count (each original region is split at most once, the new right piece
is not revisited). -/
theorem damon_split_regions_of_length (g : Nat → Nat) :
    ∀ (rs : List damon_region) (i : Nat),
      (damon_split_regions_of g i rs).1.length ≤ 2 * rs.length := by
  intro rs
  induction rs with
  | nil => intro i; simp [damon_split_regions_of]
  | cons r rest ih =>
    intro i
    have h := ih (i + 1)
    simp only [damon_split_regions_of]
    by_cases hz : (g i % 9 + 1) * (r.vm_end - r.vm_start) / 10 = 0
    · rw [if_pos hz]
      simp only [List.length_cons]
      omega
    · rw [if_neg hz]
      simp only [damon_split_region_at, List.length_append, List.length_cons,
        List.length_nil]
      omega

/-- A `kdamond_split_regions` split pass at most doubles the total
region count across all tasks. -/
theorem damon_split_targets_total (g : Nat → Nat) :
    ∀ (ts : List (List damon_region)) (i : Nat),
      nr_total_regions (damon_split_targets g i ts).1 ≤
        2 * nr_total_regions ts := by
  intro ts
  induction ts with
  | nil => intro i; simp [damon_split_targets, nr_total_regions]
  | cons t rest ih =>
    intro i
    have h1 := damon_split_regions_of_length g t i
    have h2 := ih (damon_split_regions_of g i t).2
    simp only [damon_split_targets, nr_total_regions, List.map_cons,
      List.sum_cons, nr_damon_regions] at *
    omega

/-- C8 (counterexample): with `max_nr_regions = 10` and a starting total
of 11 regions, the split step (whose gate skips it) leaves the total at
11 > 10; the claim asserts the bound for any starting total. -/
theorem kdamond_split_total_can_exceed_max :
    ¬ nr_total_regions (kdamond_split_regions 10 g4 [sized_regions 11]) ≤ 10 := by
  decide

/-- C8 (amended): provided the total region count before the split step
is at most `max_nr_regions`, it is again at most `max_nr_regions` after
the step, for any outcomes of the random split sizes: a gate-skipped
total is unchanged, and a gate-passed total (≤ max/2) at most doubles. -/
theorem kdamond_split_total_le_max (max_nr : Nat) (g : Nat → Nat)
    (ts : List (List damon_region)) (h : nr_total_regions ts ≤ max_nr) :
    nr_total_regions (kdamond_split_regions max_nr g ts) ≤ max_nr := by
  unfold kdamond_split_regions
  by_cases hg : nr_total_regions ts > max_nr / 2
  · rw [if_pos hg]; exact h
  · rw [if_neg hg]
    have h1 := damon_split_targets_total g ts 0
    omega

/-- C8 (witness): the amended bound applied at `max_nr_regions = 10`
to a 4-region target list (which the gate lets split, to 8 regions). -/
theorem kdamond_split_total_le_max_witness :
    nr_total_regions [sized_regions 4] ≤ 10 ∧
    nr_total_regions (kdamond_split_regions 10 g4 [sized_regions 4]) ≤ 10 :=
  ⟨by decide, kdamond_split_total_le_max 10 g4 [sized_regions 4] (by decide)⟩

/-- Invariant of the gap scan of `damon_three_regions_in_vmas`: if the
rest of the walk contains at most one nonempty gap and no nonempty gap
has been recorded yet (both tracked gaps empty), or the rest contains
none and at most one has been recorded (second gap still empty), then
the scan finishes with an empty second gap. -/
theorem three_regions_scan_second_gap :
    ∀ (vmas : List vm_area_struct) (s : three_regions_scan),
      ((sz_region s.first_gap = 0 ∧ sz_region s.second_gap = 0 ∧
          gaps_from s.last_vma_end vmas ≤ 1) ∨
        (sz_region s.second_gap = 0 ∧ gaps_from s.last_vma_end vmas = 0)) →
      sz_region (vmas.foldl three_regions_scan_step s).second_gap = 0 := by
  intro vmas
  induction vmas with
  | nil =>
    intro s h
    rcases h with ⟨_, h2, _⟩ | ⟨h2, _⟩ <;> simpa using h2
  | cons v rest ih =>
    intro s h
    rw [List.foldl_cons]
    apply ih
    rcases hle : s.last_vma_end with _ | le
    · -- first vma: only `start` and `last_vma_end` change
      rcases h with ⟨h1, h2, h3⟩ | ⟨h2, h3⟩
      · rw [hle] at h3
        simp only [gaps_from] at h3
        exact Or.inl ⟨by simpa [three_regions_scan_step, hle] using h1,
          by simpa [three_regions_scan_step, hle] using h2,
          by simpa [three_regions_scan_step, hle] using h3⟩
      · rw [hle] at h3
        simp only [gaps_from] at h3
        exact Or.inr ⟨by simpa [three_regions_scan_step, hle] using h2,
          by simpa [three_regions_scan_step, hle] using h3⟩
    · by_cases hgap : le < v.vm_start
      · -- a nonempty gap between the previous vma and this one
        have hsz : sz_region { start := le, end_ := v.vm_start } = v.vm_start - le := rfl
        rcases h with ⟨h1, h2, h3⟩ | ⟨h2, h3⟩
        · -- promote: the gap becomes first_gap, the (empty) old first_gap
          -- becomes second_gap
          rw [hle] at h3
          simp only [gaps_from, if_pos hgap] at h3
          have hrest : gaps_from (some v.vm_end) rest = 0 := by omega
          refine Or.inr ⟨?_, ?_⟩
          · simp only [three_regions_scan_step, hle, hsz]
            rw [if_pos (by omega : v.vm_start - le > sz_region s.second_gap),
              if_pos (by omega : v.vm_start - le > sz_region s.first_gap)]
            simpa using h1
          · simp only [three_regions_scan_step, hle, hsz]
            rw [if_pos (by omega : v.vm_start - le > sz_region s.second_gap),
              if_pos (by omega : v.vm_start - le > sz_region s.first_gap)]
            simpa using hrest
        · -- impossible: the rest of the walk was supposed to be gap-free
          rw [hle] at h3
          simp only [gaps_from, if_pos hgap] at h3
          omega
      · -- empty gap: the tracked gaps are unchanged
        have hsz : sz_region { start := le, end_ := v.vm_start } = 0 := by
          simp only [sz_region]
          omega
        have hstep : three_regions_scan_step s v =
            { s with last_vma_end := some v.vm_end } := by
          simp only [three_regions_scan_step, hle, hsz]
          rw [if_neg (by omega : ¬ 0 > sz_region s.second_gap)]
        rcases h with ⟨h1, h2, h3⟩ | ⟨h2, h3⟩
        · rw [hle] at h3
          simp only [gaps_from, if_neg hgap] at h3
          exact Or.inl ⟨by simpa [hstep] using h1, by simpa [hstep] using h2,
            by simpa [hstep] using h3⟩
        · rw [hle] at h3
          simp only [gaps_from, if_neg hgap] at h3
          exact Or.inr ⟨by simpa [hstep] using h2, by simpa [hstep] using h3⟩

/-- With fewer than two nonempty gaps, `damon_three_regions_in_vmas`
takes its `-EINVAL` return (`!sz_region(&second_gap)` holds). -/
theorem damon_three_regions_none_of_few_gaps (vmas : List vm_area_struct)
    (hgaps : nr_nonempty_gaps vmas < 2) :
    damon_three_regions_in_vmas vmas = none := by
  have h2 : sz_region (vmas.foldl three_regions_scan_step
      { start := 0, last_vma_end := none,
        first_gap := { start := 0, end_ := 0 },
        second_gap := { start := 0, end_ := 0 } }).second_gap = 0 := by
    apply three_regions_scan_second_gap
    exact Or.inl ⟨rfl, rfl, by
      simpa [nr_nonempty_gaps] using Nat.lt_succ_iff.mp hgaps⟩
  unfold damon_three_regions_in_vmas
  rw [if_pos (Or.inl h2)]

/-- C10: for a target whose vma list (sorted and disjoint, the kernel's
invariant, under which the model's `Nat` subtraction agrees with the C
unsigned arithmetic) has fewer than two nonempty unmapped gaps, the
three-big-regions computation (mm/damon.c:281) returns an error instead
of three regions, and `damon_init_regions_of` (mm/damon.c:388) then
leaves the target's region list empty. -/
theorem damon_init_regions_empty_when_few_gaps (vmas : List vm_area_struct)
    (min_nr : Nat) (hsorted : vmas_sorted vmas = true)
    (hgaps : nr_nonempty_gaps vmas < 2) :
    damon_three_regions_in_vmas vmas = none ∧
    damon_init_regions_of min_nr vmas = [] := by
  have h := damon_three_regions_none_of_few_gaps vmas hgaps
  exact ⟨h, by simp [damon_init_regions_of, h]⟩

/-- C10 (witness): a fully contiguous two-vma mapping — fewer than three
vmas and zero nonempty gaps. -/
theorem damon_init_regions_empty_when_few_gaps_witness :
    vmas_sorted [⟨0, 0x1000⟩, ⟨0x1000, 0x2000⟩] = true ∧
    nr_nonempty_gaps [⟨0, 0x1000⟩, ⟨0x1000, 0x2000⟩] < 2 ∧
    damon_three_regions_in_vmas [⟨0, 0x1000⟩, ⟨0x1000, 0x2000⟩] = none ∧
    damon_init_regions_of 10 [⟨0, 0x1000⟩, ⟨0x1000, 0x2000⟩] = [] :=
  ⟨by decide, by decide,
   (damon_init_regions_empty_when_few_gaps _ 10 (by decide) (by decide)).1,
   (damon_init_regions_empty_when_few_gaps _ 10 (by decide) (by decide)).2⟩

/-- Coverage of a cons cell. -/
theorem damon_covers_cons (r : damon_region) (rs : List damon_region) (a : Nat) :
    damon_covers (r :: rs) a ↔
      (r.vm_start ≤ a ∧ a < r.vm_end) ∨ damon_covers rs a := by
  simp [damon_covers]

/-- Coverage of an appended list. -/
theorem damon_covers_append (xs ys : List damon_region) (a : Nat) :
    damon_covers (xs ++ ys) a ↔ damon_covers xs a ∨ damon_covers ys a := by
  simp [damon_covers, or_and_right, exists_or]

/-- The merge scan preserves coverage: every address covered before is
covered after, and conversely (merging needs `prev.vm_end = r.vm_start`,
so the merged region covers exactly the union). -/
theorem damon_merge_aux_covers (thres : Nat) :
    ∀ (rest : List damon_region) (prev : damon_region) (a : Nat),
      damon_wf (prev :: rest) →
      (damon_covers (damon_merge_aux thres prev rest) a ↔
        damon_covers (prev :: rest) a) := by
  intro rest
  induction rest with
  | nil => intro prev a _; simp [damon_merge_aux]
  | cons r t ih =>
    intro prev a hwf
    have hwf_prev : prev.vm_start ≤ prev.vm_end := hwf prev (by simp)
    have hwf_r : r.vm_start ≤ r.vm_end := hwf r (by simp)
    have hwf_t : damon_wf (r :: t) := fun x hx => hwf x (by simp [hx])
    by_cases hc : prev.vm_end = r.vm_start ∧
        diff_of prev.nr_accesses r.nr_accesses ≤ thres
    · rw [damon_merge_aux, if_pos hc]
      have hwf_m : damon_wf (damon_merge_two_regions prev r :: t) := by
        intro x hx
        rcases List.mem_cons.mp hx with hx | hx
        · subst hx
          show prev.vm_start ≤ r.vm_end
          omega
        · exact hwf x (by simp [hx])
      rw [ih (damon_merge_two_regions prev r) a hwf_m]
      rw [damon_covers_cons, damon_covers_cons, damon_covers_cons]
      have key : (prev.vm_start ≤ a ∧ a < r.vm_end) ↔
          ((prev.vm_start ≤ a ∧ a < prev.vm_end) ∨
            (r.vm_start ≤ a ∧ a < r.vm_end)) := by omega
      show ((damon_merge_two_regions prev r).vm_start ≤ a ∧
          a < (damon_merge_two_regions prev r).vm_end) ∨ damon_covers t a ↔ _
      rw [show (damon_merge_two_regions prev r).vm_start = prev.vm_start from rfl,
        show (damon_merge_two_regions prev r).vm_end = r.vm_end from rfl, key,
        or_assoc]
    · rw [damon_merge_aux, if_neg hc]
      rw [damon_covers_cons, damon_covers_cons, damon_covers_cons,
        ih r a hwf_t, damon_covers_cons]

/-- `damon_merge_regions_of` preserves coverage on well-formed region
lists. -/
theorem damon_merge_regions_of_covers (thres : Nat) (rs : List damon_region)
    (a : Nat) (hwf : damon_wf rs) :
    damon_covers (damon_merge_regions_of thres rs) a ↔ damon_covers rs a := by
  cases rs with
  | nil => simp [damon_merge_regions_of]
  | cons r rest => exact damon_merge_aux_covers thres rest r a hwf

/-- The left-piece size drawn by `damon_split_regions_of` never exceeds
the region's size. -/
theorem sz_left_le (k sz : Nat) : (k % 9 + 1) * sz / 10 ≤ sz := by
  have h1 : (k % 9 + 1) * sz ≤ 10 * sz := by
    have : k % 9 + 1 ≤ 10 := by omega
    exact Nat.mul_le_mul_right sz this
  calc (k % 9 + 1) * sz / 10 ≤ 10 * sz / 10 := Nat.div_le_div_right h1
    _ = sz := by omega

/-- `damon_split_regions_of` preserves coverage: each split replaces a
region by two pieces covering exactly the same addresses. -/
theorem damon_split_regions_of_covers (g : Nat → Nat) :
    ∀ (rs : List damon_region) (i a : Nat),
      damon_covers (damon_split_regions_of g i rs).1 a ↔ damon_covers rs a := by
  intro rs
  induction rs with
  | nil => intro i a; simp [damon_split_regions_of]
  | cons r rest ih =>
    intro i a
    simp only [damon_split_regions_of]
    by_cases hz : (g i % 9 + 1) * (r.vm_end - r.vm_start) / 10 = 0
    · rw [if_pos hz]
      rw [damon_covers_cons, damon_covers_cons, ih (i + 1) a]
    · rw [if_neg hz]
      rw [damon_covers_append, ih (i + 1) a, damon_covers_cons]
      have hle : (g i % 9 + 1) * (r.vm_end - r.vm_start) / 10 ≤
          r.vm_end - r.vm_start := sz_left_le (g i) (r.vm_end - r.vm_start)
      have hpos : 0 < r.vm_end - r.vm_start := by
        rcases Nat.eq_zero_or_pos (r.vm_end - r.vm_start) with h0 | h0
        · exact absurd (by simp [h0]) hz
        · exact h0
      have key : damon_covers (damon_split_region_at r
          ((g i % 9 + 1) * (r.vm_end - r.vm_start) / 10)) a ↔
          (r.vm_start ≤ a ∧ a < r.vm_end) := by
        simp only [damon_split_region_at, damon_new_region, damon_covers_cons]
        show ((r.vm_start ≤ a ∧ a < r.vm_start + _) ∨
          (r.vm_start + _ ≤ a ∧ a < r.vm_end) ∨ damon_covers [] a) ↔ _
        have hnone : ¬ damon_covers [] a := by simp [damon_covers]
        constructor
        · rintro (h | h | h) <;> first | omega | exact absurd h hnone
        · intro h
          by_cases hsplit : a < r.vm_start +
              (g i % 9 + 1) * (r.vm_end - r.vm_start) / 10
          · exact Or.inl ⟨h.1, hsplit⟩
          · exact Or.inr (Or.inl ⟨by omega, h.2⟩)
      rw [key]

/-- The merge scan preserves well-formedness. -/
theorem damon_merge_aux_wf (thres : Nat) :
    ∀ (t : List damon_region) (prev : damon_region),
      damon_wf (prev :: t) → damon_wf (damon_merge_aux thres prev t) := by
  intro t
  induction t with
  | nil => intro prev h; simpa [damon_merge_aux] using h
  | cons x xs ihx =>
    intro prev h
    have hp : prev.vm_start ≤ prev.vm_end := h prev (by simp)
    have hx : x.vm_start ≤ x.vm_end := h x (by simp)
    by_cases hc : prev.vm_end = x.vm_start ∧
        diff_of prev.nr_accesses x.nr_accesses ≤ thres
    · rw [damon_merge_aux, if_pos hc]
      apply ihx
      intro y hy
      rcases List.mem_cons.mp hy with hy | hy
      · subst hy
        show prev.vm_start ≤ x.vm_end
        omega
      · exact h y (by simp [hy])
    · rw [damon_merge_aux, if_neg hc]
      intro y hy
      rcases List.mem_cons.mp hy with hy | hy
      · subst hy; exact hp
      · exact ihx x (fun z hz => h z (by simp [hz])) y hy

/-- `damon_merge_regions_of` preserves well-formedness. -/
theorem damon_merge_regions_of_wf (thres : Nat) (rs : List damon_region)
    (hwf : damon_wf rs) : damon_wf (damon_merge_regions_of thres rs) := by
  cases rs with
  | nil => simpa [damon_merge_regions_of] using hwf
  | cons r rest => exact damon_merge_aux_wf thres rest r hwf

/-- `damon_split_regions_of` preserves well-formedness. -/
theorem damon_split_regions_of_wf (g : Nat → Nat) :
    ∀ (rs : List damon_region) (i : Nat),
      damon_wf rs → damon_wf (damon_split_regions_of g i rs).1 := by
  intro rs
  induction rs with
  | nil => intro i h; simpa [damon_split_regions_of] using h
  | cons r rest ih =>
    intro i h
    have hr : r.vm_start ≤ r.vm_end := h r (by simp)
    have hrest : damon_wf (damon_split_regions_of g (i + 1) rest).1 :=
      ih (i + 1) (fun z hz => h z (by simp [hz]))
    simp only [damon_split_regions_of]
    by_cases hz : (g i % 9 + 1) * (r.vm_end - r.vm_start) / 10 = 0
    · rw [if_pos hz]
      intro y hy
      rcases List.mem_cons.mp hy with hy | hy
      · subst hy; exact hr
      · exact hrest y hy
    · rw [if_neg hz]
      have hle : (g i % 9 + 1) * (r.vm_end - r.vm_start) / 10 ≤
          r.vm_end - r.vm_start := sz_left_le (g i) (r.vm_end - r.vm_start)
      intro y hy
      rcases List.mem_append.mp hy with hy | hy
      · simp only [damon_split_region_at, damon_new_region,
          List.mem_cons, List.not_mem_nil, or_false] at hy
        rcases hy with hy | hy <;> subst hy
        · show r.vm_start ≤ r.vm_start + _
          omega
        · show r.vm_start + _ ≤ r.vm_end
          omega
      · exact hrest y hy

/-- Both kinds of partition step preserve well-formedness. -/
theorem apply_partition_step_wf (st : PartitionStep) (rs : List damon_region)
    (hwf : damon_wf rs) : damon_wf (apply_partition_step st rs) := by
  cases st with
  | merge thres => exact damon_merge_regions_of_wf thres rs hwf
  | split g => exact damon_split_regions_of_wf g rs 0 hwf

/-- Both kinds of partition step preserve coverage on well-formed
lists. -/
theorem apply_partition_step_covers (st : PartitionStep)
    (rs : List damon_region) (a : Nat) (hwf : damon_wf rs) :
    damon_covers (apply_partition_step st rs) a ↔ damon_covers rs a := by
  cases st with
  | merge thres => exact damon_merge_regions_of_covers thres rs a hwf
  | split g => exact damon_split_regions_of_covers g rs 0 a

/-- C7: on a target with well-formed regions, any sequence of merge
steps and split steps leaves the union of covered addresses unchanged —
no address is gained or lost (mm/damon.c:666,684,722,733). -/
theorem partition_steps_preserve_coverage :
    ∀ (steps : List PartitionStep) (rs : List damon_region),
      damon_wf rs → ∀ a : Nat,
        (damon_covers (apply_partition_steps steps rs) a ↔ damon_covers rs a) := by
  intro steps
  induction steps with
  | nil => intro rs _ a; simp [apply_partition_steps]
  | cons st rest ih =>
    intro rs hwf a
    show damon_covers (apply_partition_steps rest (apply_partition_step st rs)) a
      ↔ damon_covers rs a
    rw [ih (apply_partition_step st rs) (apply_partition_step_wf st rs hwf) a,
      apply_partition_step_covers st rs a hwf]

/-- C7 (witness): a merge pass with threshold 0 followed by a random
split pass on two touching well-formed regions; address `0x1800` is
covered before and after, address `0x5000` is covered by neither. -/
theorem partition_steps_preserve_coverage_witness :
    damon_wf [mk_region 0 0x1000 7, mk_region 0x1000 0x3000 7] ∧
    (damon_covers (apply_partition_steps [.merge 0, .split g4]
        [mk_region 0 0x1000 7, mk_region 0x1000 0x3000 7]) 0x1800 ↔
      damon_covers [mk_region 0 0x1000 7, mk_region 0x1000 0x3000 7] 0x1800) ∧
    (damon_covers (apply_partition_steps [.merge 0, .split g4]
        [mk_region 0 0x1000 7, mk_region 0x1000 0x3000 7]) 0x5000 ↔
      damon_covers [mk_region 0 0x1000 7, mk_region 0x1000 0x3000 7] 0x5000) :=
  ⟨by decide,
   partition_steps_preserve_coverage [.merge 0, .split g4] _ (by decide) 0x1800,
   partition_steps_preserve_coverage [.merge 0, .split g4] _ (by decide) 0x5000⟩

/-- Statistics update characterization: applying the schemes of a list
to one region updates exactly the schemes the region matches and whose
`apply_scheme` invocation succeeds, each by `damos_update_stat`. -/
theorem damon_do_apply_schemes_fst (ok : Nat → Nat → Nat → Bool) (ti ri : Nat)
    (r : damon_region) :
    ∀ (ss : List damos) (si j : Nat),
      (damon_do_apply_schemes ok ti ri r si ss).1[j]? =
        (ss[j]?).map (fun s =>
          if damos_valid_target r s = true ∧ ok ti ri (si + j) = true
          then damos_update_stat s r else s) := by
  intro ss
  induction ss with
  | nil => intro si j; simp [damon_do_apply_schemes]
  | cons s ss ih =>
    intro si j
    simp only [damon_do_apply_schemes]
    by_cases hv : damos_valid_target r s = true
    · by_cases ho : ok ti ri si = true
      · rw [if_pos hv, if_pos ho]
        cases j with
        | zero => simp [hv, ho]
        | succ j =>
          simp only [List.getElem?_cons_succ]
          rw [ih (si + 1) j]
          have : si + 1 + j = si + (j + 1) := by omega
          rw [this]
      · rw [if_pos hv, if_neg ho]
        cases j with
        | zero => simp [hv, ho]
        | succ j =>
          simp only [List.getElem?_cons_succ]
          rw [ih (si + 1) j]
          have : si + 1 + j = si + (j + 1) := by omega
          rw [this]
    · rw [if_neg hv]
      cases j with
      | zero => simp [hv]
      | succ j =>
        simp only [List.getElem?_cons_succ]
        rw [ih (si + 1) j]
        have : si + 1 + j = si + (j + 1) := by omega
        rw [this]

/-- `invoke_indices` distributes over list append. -/
theorem invoke_indices_append (xs ys : List SchemeEvent) :
    invoke_indices (xs ++ ys) = invoke_indices xs ++ invoke_indices ys := by
  simp [invoke_indices]

/-- `invoke_indices` of a leading invocation event. -/
theorem invoke_indices_cons_invoke (a b c : Nat) (xs : List SchemeEvent) :
    invoke_indices (SchemeEvent.invoke a b c :: xs) = c :: invoke_indices xs := by
  simp [invoke_indices]

/-- The external-action events generated by one `apply_scheme` carry no
scheme indices. -/
theorem invoke_indices_action_events (r : damon_region) (s : damos) :
    invoke_indices (damos_apply_action_events r s) = [] := by
  by_cases h : s.action = damos_action.stat <;>
    simp [damos_apply_action_events, invoke_indices, h]

/-- Invocation order and completeness for one region: the sequence of
`apply_scheme` invocations equals the in-list-order sequence of the
schemes the region matches. -/
theorem damon_do_apply_schemes_invokes (ok : Nat → Nat → Nat → Bool)
    (ti ri : Nat) (r : damon_region) :
    ∀ (ss : List damos) (si : Nat),
      invoke_indices (damon_do_apply_schemes ok ti ri r si ss).2 =
        eligible_idxs r si ss := by
  intro ss
  induction ss with
  | nil => intro si; simp [damon_do_apply_schemes, invoke_indices, eligible_idxs]
  | cons s ss ih =>
    intro si
    simp only [damon_do_apply_schemes, eligible_idxs]
    by_cases hv : damos_valid_target r s = true
    · by_cases ho : ok ti ri si = true
      · rw [if_pos hv, if_pos ho]
        rw [invoke_indices_append, invoke_indices_cons_invoke,
          invoke_indices_action_events, ih (si + 1)]
        simp [hv]
      · rw [if_pos hv, if_neg ho]
        simp only [invoke_indices, List.filterMap_cons]
        simpa [invoke_indices, hv] using congrArg (List.cons si) (ih (si + 1))
    · rw [if_neg hv]
      simpa [hv] using ih (si + 1)

/-- `damos_update_stat` adds exactly one to `stat_count`, the region
size to `stat_sz`, and changes nothing else. -/
theorem damos_update_stat_spec (s : damos) (r : damon_region) :
    (damos_update_stat s r).stat_count = s.stat_count + 1 ∧
    (damos_update_stat s r).stat_sz = s.stat_sz + sz_damon_region r ∧
    damos_pattern (damos_update_stat s r) = damos_pattern s :=
  ⟨rfl, rfl, rfl⟩

/-- A region's eligibility depends only on the scheme's pattern
fields. -/
theorem damos_valid_target_congr (r : damon_region) (s s' : damos)
    (h : damos_pattern s = damos_pattern s') :
    damos_valid_target r s = damos_valid_target r s' := by
  simp only [damos_pattern, Prod.mk.injEq] at h
  obtain ⟨h1, h2, h3, h4, h5, h6, h7⟩ := h
  simp [damos_valid_target, h1, h2, h3, h4, h5, h6]

/-- Applying schemes to one region preserves every scheme's pattern. -/
theorem damon_do_apply_schemes_pattern (ok : Nat → Nat → Nat → Bool)
    (ti ri : Nat) (r : damon_region) (ss : List damos) (si j : Nat) :
    ((damon_do_apply_schemes ok ti ri r si ss).1[j]?).map damos_pattern =
      (ss[j]?).map damos_pattern := by
  rw [damon_do_apply_schemes_fst ok ti ri r ss si j]
  cases hj : ss[j]? with
  | none => rfl
  | some s =>
    simp only [Option.map_some']
    by_cases hc : damos_valid_target r s = true ∧ ok ti ri (si + j) = true
    · rw [if_pos hc]; rfl
    · rw [if_neg hc]

/-- Applying schemes to a whole target preserves every scheme's
pattern. -/
theorem damos_apply_regions_pattern (ok : Nat → Nat → Nat → Bool) (ti : Nat) :
    ∀ (t : List damon_region) (ri0 : Nat) (ss : List damos) (j : Nat),
      ((damos_apply_regions ok ti ri0 t ss).1[j]?).map damos_pattern =
        (ss[j]?).map damos_pattern := by
  intro t
  induction t with
  | nil => intro ri0 ss j; rfl
  | cons r rest ih =>
    intro ri0 ss j
    simp only [damos_apply_regions]
    rw [ih (ri0 + 1) (damon_do_apply_schemes ok ti ri0 r 0 ss).1 j,
      damon_do_apply_schemes_pattern]

/-- Membership of the invocation for an eligible scheme in one region's
event list. -/
theorem invoke_mem_do_apply (ok : Nat → Nat → Nat → Bool) (ti ri : Nat)
    (r : damon_region) :
    ∀ (ss : List damos) (si0 si : Nat) (s : damos),
      ss[si]? = some s → damos_valid_target r s = true →
      SchemeEvent.invoke ti ri (si0 + si) ∈
        (damon_do_apply_schemes ok ti ri r si0 ss).2 := by
  intro ss
  induction ss with
  | nil => intro si0 si s h _; simp at h
  | cons s0 ss ih =>
    intro si0 si s hget hvalid
    simp only [damon_do_apply_schemes]
    cases si with
    | zero =>
      simp only [List.getElem?_cons_zero, Option.some.injEq] at hget
      subst hget
      rw [if_pos hvalid]
      by_cases ho : ok ti ri si0 = true
      · rw [if_pos ho]
        simp
      · rw [if_neg ho]
        simp
    | succ si =>
      simp only [List.getElem?_cons_succ] at hget
      have hmem := ih (si0 + 1) si s hget hvalid
      have harith : si0 + 1 + si = si0 + (si + 1) := by omega
      rw [harith] at hmem
      by_cases hv : damos_valid_target r s0 = true
      · by_cases ho : ok ti ri si0 = true
        · rw [if_pos hv, if_pos ho]
          exact List.mem_append_right _ hmem
        · rw [if_pos hv, if_neg ho]
          exact List.mem_cons_of_mem _ hmem
      · rw [if_neg hv]
        exact hmem

/-- Membership of the invocation for an eligible (region, scheme) pair
in one target's event list. -/
theorem invoke_mem_apply_regions (ok : Nat → Nat → Nat → Bool) (ti : Nat) :
    ∀ (t : List damon_region) (ri0 ri : Nat) (r : damon_region)
      (ss : List damos) (si : Nat) (s : damos),
      t[ri]? = some r → ss[si]? = some s → damos_valid_target r s = true →
      SchemeEvent.invoke ti (ri0 + ri) si ∈
        (damos_apply_regions ok ti ri0 t ss).2 := by
  intro t
  induction t with
  | nil => intro ri0 ri r ss si s h _ _; simp at h
  | cons r0 rest ih =>
    intro ri0 ri r ss si s hr hs hvalid
    simp only [damos_apply_regions]
    cases ri with
    | zero =>
      simp only [List.getElem?_cons_zero, Option.some.injEq] at hr
      subst hr
      have hmem := invoke_mem_do_apply ok ti ri0 r0 ss 0 si s hs hvalid
      rw [Nat.zero_add] at hmem
      rw [Nat.add_zero]
      exact List.mem_append_left _ hmem
    | succ ri =>
      simp only [List.getElem?_cons_succ] at hr
      -- the scheme at index si after the first region has the same pattern
      have hpat : (((damon_do_apply_schemes ok ti ri0 r0 0 ss).1)[si]?).map
          damos_pattern = (ss[si]?).map damos_pattern :=
        damon_do_apply_schemes_pattern ok ti ri0 r0 ss 0 si
      rw [hs, Option.map_some'] at hpat
      obtain ⟨s', hs', hps'⟩ := Option.map_eq_some'.mp hpat
      have hvalid' : damos_valid_target r s' = true := by
        rw [damos_valid_target_congr r s' s hps']
        exact hvalid
      have hmem := ih (ri0 + 1) ri r
        (damon_do_apply_schemes ok ti ri0 r0 0 ss).1 si s' hr hs' hvalid'
      have harith : ri0 + 1 + ri = ri0 + (ri + 1) := by omega
      rw [harith] at hmem
      exact List.mem_append_right _ hmem

/-- Membership of the invocation for an eligible (target, region,
scheme) triple in the full aggregation's event list. -/
theorem invoke_mem_apply_targets (ok : Nat → Nat → Nat → Bool) :
    ∀ (ts : List (List damon_region)) (ti0 ti : Nat) (t : List damon_region)
      (ri : Nat) (r : damon_region) (ss : List damos) (si : Nat) (s : damos),
      ts[ti]? = some t → t[ri]? = some r → ss[si]? = some s →
      damos_valid_target r s = true →
      SchemeEvent.invoke (ti0 + ti) ri si ∈
        (kdamond_apply_schemes ok ti0 ts ss).2 := by
  intro ts
  induction ts with
  | nil => intro ti0 ti t ri r ss si s h _ _ _; simp at h
  | cons t0 rest ih =>
    intro ti0 ti t ri r ss si s ht hr hs hvalid
    simp only [kdamond_apply_schemes]
    cases ti with
    | zero =>
      simp only [List.getElem?_cons_zero, Option.some.injEq] at ht
      subst ht
      have hmem := invoke_mem_apply_regions ok ti0 t0 0 ri r ss si s hr hs hvalid
      rw [Nat.zero_add] at hmem
      rw [Nat.add_zero]
      exact List.mem_append_left _ hmem
    | succ ti =>
      simp only [List.getElem?_cons_succ] at ht
      have hpat : (((damos_apply_regions ok ti0 0 t0 ss).1)[si]?).map
          damos_pattern = (ss[si]?).map damos_pattern :=
        damos_apply_regions_pattern ok ti0 t0 0 ss si
      rw [hs, Option.map_some'] at hpat
      obtain ⟨s', hs', hps'⟩ := Option.map_eq_some'.mp hpat
      have hvalid' : damos_valid_target r s' = true := by
        rw [damos_valid_target_congr r s' s hps']
        exact hvalid
      have hmem := ih (ti0 + 1) ti t ri r
        (damos_apply_regions ok ti0 0 t0 ss).1 si s' ht hr hs' hvalid'
      have harith : ti0 + 1 + ti = ti0 + (ti + 1) := by omega
      rw [harith] at hmem
      exact List.mem_append_right _ hmem

/-- A STAT scheme never emits an external action from one region's
application. -/
theorem madvise_stat_not_in_do_apply (ok : Nat → Nat → Nat → Bool)
    (ti ri : Nat) (r : damon_region) :
    ∀ (ss : List damos) (si st en : Nat),
      SchemeEvent.madvise damos_action.stat st en ∉
        (damon_do_apply_schemes ok ti ri r si ss).2 := by
  intro ss
  induction ss with
  | nil => intro si st en; simp [damon_do_apply_schemes]
  | cons s ss ih =>
    intro si st en
    simp only [damon_do_apply_schemes]
    by_cases hv : damos_valid_target r s = true
    · by_cases ho : ok ti ri si = true
      · rw [if_pos hv, if_pos ho]
        intro hmem
        rcases List.mem_append.mp hmem with hmem | hmem
        · rcases List.mem_cons.mp hmem with hmem | hmem
          · exact absurd hmem (by simp)
          · by_cases hstat : s.action = damos_action.stat
            · simp [damos_apply_action_events, hstat] at hmem
            · simp only [damos_apply_action_events, if_neg hstat,
                List.mem_singleton, SchemeEvent.madvise.injEq] at hmem
              exact hstat hmem.1.symm
        · exact ih (si + 1) st en hmem
      · rw [if_pos hv, if_neg ho]
        intro hmem
        rcases List.mem_cons.mp hmem with hmem | hmem
        · exact absurd hmem (by simp)
        · exact ih (si + 1) st en hmem
    · rw [if_neg hv]
      exact ih (si + 1) st en

/-- A STAT scheme never emits an external action from one target's
application. -/
theorem madvise_stat_not_in_apply_regions (ok : Nat → Nat → Nat → Bool)
    (ti : Nat) :
    ∀ (t : List damon_region) (ri0 : Nat) (ss : List damos) (st en : Nat),
      SchemeEvent.madvise damos_action.stat st en ∉
        (damos_apply_regions ok ti ri0 t ss).2 := by
  intro t
  induction t with
  | nil => intro ri0 ss st en; simp [damos_apply_regions]
  | cons r rest ih =>
    intro ri0 ss st en
    simp only [damos_apply_regions]
    intro hmem
    rcases List.mem_append.mp hmem with hmem | hmem
    · exact madvise_stat_not_in_do_apply ok ti ri0 r ss 0 st en hmem
    · exact ih (ri0 + 1) _ st en hmem

/-- A STAT scheme never emits an external action from a full
aggregation. -/
theorem madvise_stat_not_in_apply_targets (ok : Nat → Nat → Nat → Bool) :
    ∀ (ts : List (List damon_region)) (ti0 : Nat) (ss : List damos)
      (st en : Nat),
      SchemeEvent.madvise damos_action.stat st en ∉
        (kdamond_apply_schemes ok ti0 ts ss).2 := by
  intro ts
  induction ts with
  | nil => intro ti0 ss st en; simp [kdamond_apply_schemes]
  | cons t rest ih =>
    intro ti0 ss st en
    simp only [kdamond_apply_schemes]
    intro hmem
    rcases List.mem_append.mp hmem with hmem | hmem
    · exact madvise_stat_not_in_apply_regions ok ti0 t 0 ss st en hmem
    · exact ih (ti0 + 1) _ st en hmem

/-- C3 (spec-modelled): the scheme engine.  (i) Applying the schemes to
a region updates exactly the matching schemes whose invocation
succeeds, per `damos_update_stat`; (ii) `damos_update_stat` adds 1 to
`stat_count` and the region size to `stat_sz` and nothing else;
(iii) the invocations for one region are exactly the matching schemes,
in scheme-list order; (iv) a STAT scheme performs no external action —
it only accumulates statistics; (v) every (target, region, scheme)
triple whose region lies within the scheme's inclusive size / access /
age bounds gets an `apply_scheme` invocation; (vi) one region may match
several schemes (two invocations for region (0,0) below). -/
theorem kdamond_apply_schemes_spec :
    (∀ (ok : Nat → Nat → Nat → Bool) (ti ri : Nat) (r : damon_region)
        (ss : List damos) (si j : Nat),
        (damon_do_apply_schemes ok ti ri r si ss).1[j]? =
          (ss[j]?).map (fun s =>
            if damos_valid_target r s = true ∧ ok ti ri (si + j) = true
            then damos_update_stat s r else s)) ∧
    (∀ (s : damos) (r : damon_region),
        (damos_update_stat s r).stat_count = s.stat_count + 1 ∧
        (damos_update_stat s r).stat_sz = s.stat_sz + sz_damon_region r ∧
        damos_pattern (damos_update_stat s r) = damos_pattern s) ∧
    (∀ (ok : Nat → Nat → Nat → Bool) (ti ri : Nat) (r : damon_region)
        (ss : List damos) (si : Nat),
        invoke_indices (damon_do_apply_schemes ok ti ri r si ss).2 =
          eligible_idxs r si ss) ∧
    (∀ (ok : Nat → Nat → Nat → Bool) (ti0 : Nat)
        (ts : List (List damon_region)) (ss : List damos) (st en : Nat),
        SchemeEvent.madvise damos_action.stat st en ∉
          (kdamond_apply_schemes ok ti0 ts ss).2) ∧
    (∀ (ok : Nat → Nat → Nat → Bool) (targets : List (List damon_region))
        (schemes : List damos) (ti ri si : Nat) (t : List damon_region)
        (r : damon_region) (s : damos),
        targets[ti]? = some t → t[ri]? = some r → schemes[si]? = some s →
        damos_valid_target r s = true →
        SchemeEvent.invoke ti ri si ∈
          (kdamond_apply_schemes ok 0 targets schemes).2) ∧
    (SchemeEvent.invoke 0 0 0 ∈
        (kdamond_apply_schemes ok_all 0 [[r_matching]] [s_broad, s_broad]).2 ∧
      SchemeEvent.invoke 0 0 1 ∈
        (kdamond_apply_schemes ok_all 0 [[r_matching]] [s_broad, s_broad]).2) := by
  refine ⟨damon_do_apply_schemes_fst, damos_update_stat_spec,
    damon_do_apply_schemes_invokes,
    (fun ok ti0 ts ss st en => madvise_stat_not_in_apply_targets ok ts ti0 ss st en),
    ?_, by decide, by decide⟩
  intro ok targets schemes ti ri si t r s ht hr hs hvalid
  have hmem := invoke_mem_apply_targets ok targets 0 ti t ri r schemes si s
    ht hr hs hvalid
  rwa [Nat.zero_add] at hmem

/-- C3 (witness): the completeness conjunct applied to the concrete
configuration — one target with one matching region and one STAT
scheme; the invocation for the triple (0, 0, 0) occurs. -/
theorem kdamond_apply_schemes_spec_witness :
    SchemeEvent.invoke 0 0 0 ∈
      (kdamond_apply_schemes ok_all 0 [[r_matching]] [s_broad]).2 :=
  kdamond_apply_schemes_spec.2.2.2.2.1 ok_all [[r_matching]] [s_broad]
    0 0 0 [r_matching] r_matching s_broad rfl rfl rfl (by decide)

end DamonSpec
